import Mathlib

/-!
Verification of the kodx "Code Xray" core against its code.

The definitions below are shallow embeddings of the TypeScript sources:
`src/parser.ts` (body extraction, enclosing-scope search, call-site
parsing), the resolver module (appended inside `src/README.md`:
`resolveFunctionDefinition`, `findDefinitionInDocument`,
`extractFunctionContent`), and the de-duplication step of
`XrayPanel.updateForEditor` in `src/panel.ts`.

A document is modelled as its list of lines (`List String`); machine
numbers are `Nat`/`Int` (JavaScript brace counters may go negative, hence
`Int` for the depth).
-/

namespace Kodx

/-- Embeds `vscode.Position`: zero-based line and character. -/
structure Pos where
  line : Nat
  character : Nat
deriving DecidableEq

/-- Embeds `vscode.Range`; `stop` models the `end` field (a Lean keyword). -/
structure Range where
  start : Pos
  stop : Pos
deriving DecidableEq

/-- Lexicographic order on positions, as in `Position.isBeforeOrEqual`. -/
def posLe (p q : Pos) : Bool :=
  p.line < q.line || (p.line == q.line && p.character ≤ q.character)

/-- Embeds `vscode.Range.contains(position)`: `start ≤ p ≤ end`. -/
def rangeContains (r : Range) (p : Pos) : Bool :=
  posLe r.start p && posLe p r.stop

/-- Embeds `rangeSize` from `src/parser.ts`:
`(r.end.line - r.start.line) * 10000 + (r.end.character - r.start.character)`. -/
def rangeSize (r : Range) : Int :=
  ((r.stop.line : Int) - r.start.line) * 10000
    + ((r.stop.character : Int) - r.start.character)

/-! ## The shared per-line brace scan

Both `extractFunctionDefinition` (src/parser.ts) and
`extractFunctionContent` (resolver in src/README.md) run the identical
inner character loop: `{` increments the signed depth and marks that a
brace was seen; `}` decrements and, if a brace was seen and the depth is
back to zero, the loop returns early from the whole function.
-/

/-- Outcome of scanning one line's characters. -/
inductive ScanStep where
  /-- The depth returned to zero on this line: the extraction ends here. -/
  | closed : ScanStep
  /-- The line was fully scanned; carries the new depth and seen-brace flag. -/
  | next (braceCount : Int) (started : Bool) : ScanStep
deriving DecidableEq

/-- Character loop shared by both extractors (see module comment above). -/
def scanLine (braceCount : Int) (started : Bool) : List Char → ScanStep
  | [] => .next braceCount started
  | c :: cs =>
    if c = '{' then
      scanLine (braceCount + 1) true cs
    else if c = '}' then
      if started ∧ braceCount - 1 = 0 then .closed
      else scanLine (braceCount - 1) started cs
    else scanLine braceCount started cs

/-- Embeds `lines.join('\n')`. -/
def joinLines : List String → String
  | [] => ""
  | [l] => l
  | l :: ls => l ++ "\n" ++ joinLines ls

/-- Embeds `line.substring(0, line.indexOf('}') + 1)` from src/parser.ts:
everything up to and including the first `}` of the line (the empty string
when the line has no `}`, since `indexOf` returns `-1`). -/
def substringToFirstCloseBrace (l : String) : String :=
  if ('}' ∈ l.data) then ⟨l.data.takeWhile (· ≠ '}') ++ ['}']⟩ else ""

/-- Main loop of `extractFunctionDefinition` (src/parser.ts lines 63-101):
`i` is the current line index, `acc` the collected lines. On the closing
line the parser pushes the line truncated at its first `}`. After a full
line, the line is collected exactly when a `{` has been seen (the
`else if (line.includes('{'))` branch of the source is unreachable: the
character loop has already set `startedCapturing` for such a line). -/
def extractGo : List String → Nat → Int → Bool → List String → Option (String × Nat)
  | [], _, _, _, _ => none
  | l :: rest, i, braceCount, started, acc =>
    match scanLine braceCount started l.data with
    | .closed => some (joinLines (acc ++ [substringToFirstCloseBrace l]), i)
    | .next bc' st' =>
      extractGo rest (i + 1) bc' st' (if st' then acc ++ [l] else acc)

/-- Embeds `extractFunctionDefinition(document, startLine)` from
src/parser.ts: returns the extracted content and the terminating line
index, or `none` when no balancing `}` is found before end of document. -/
def extractFunctionDefinition (doc : List String) (startLine : Nat) :
    Option (String × Nat) :=
  extractGo (doc.drop startLine) startLine 0 false []

/-- Embeds JavaScript `s.includes(pat)`: substring containment. -/
def substrContains (s pat : String) : Bool :=
  s.data.tails.any (fun t => pat.data.isPrefixOf t)

/-- Main loop of `extractFunctionContent` (resolver, src/README.md lines
172-212). The first line is always collected (`if (!started)` fires on the
first iteration only); each later line is collected after its scan
(`started && i > startLine`). On the closing line, the line is appended
unless the last collected line already contains it as a substring, and the
joined content is returned when non-empty. -/
def extractContentGo : List String → Bool → Int → Bool → List String → Option String
  | [], _, _, _, _ => none
  | l :: rest, first, braceCount, found, acc =>
    let acc0 := if first then acc ++ [l] else acc
    match scanLine braceCount found l.data with
    | .closed =>
      let final := if substrContains (acc0.getLastD "") l then acc0 else acc0 ++ [l]
      let content := joinLines final
      if content.length > 0 then some content else none
    | .next bc' st' =>
      extractContentGo rest false bc' st' (if first then acc0 else acc0 ++ [l])

/-- Embeds `extractFunctionContent(document, startLine)` from the resolver
(src/README.md): returns the extracted content, or `none` when no
balancing `}` is found before end of document. -/
def extractFunctionContent (doc : List String) (startLine : Nat) : Option String :=
  extractContentGo (doc.drop startLine) true 0 false []

/-! ## Tier B of the resolver: `findDefinitionInDocument` (src/README.md)

The source builds four regexes over the escaped function name and runs
each with `exec` (`g` flag) in order:

1. `function\s+NAME\s*\(`
2. `const\s+NAME\s*=.*=>`
3. `NAME\s*\(.*\)\s*{`
4. `NAME\s*\(.*\)\s*:\s*`

They are embedded below as direct matchers. JavaScript `\s` is modelled by
its ASCII members (the Unicode space characters it also accepts play no
role here); `.` matches anything but a line terminator. The matchers
assume the name is a non-empty identifier (as produced by the call-site
regex), which makes the greedy `\s+`/`\s*` quantifiers deterministic.
-/

/-- ASCII members of JavaScript `\s`. -/
def isJsWs (c : Char) : Bool :=
  c = ' ' || c = '\t' || c = '\n' || c = '\r' || c = '\x0b' || c = '\x0c'

/-- Line terminators, which JavaScript `.` does not match. -/
def isNewlineChar (c : Char) : Bool :=
  c = '\n' || c = '\r'

/-- Matches a literal string at the head of the suffix, returning the rest. -/
def litp (s : List Char) (t : List Char) : Option (List Char) :=
  if s.isPrefixOf t then some (t.drop s.length) else none

/-- Consumes `\s*` (maximal whitespace run). -/
def dropWs (t : List Char) : List Char :=
  t.dropWhile isJsWs

/-- Consumes `\s+` (at least one whitespace character, then maximal run). -/
def dropWs1 (t : List Char) : Option (List Char) :=
  match t with
  | [] => none
  | c :: _ => if isJsWs c then some (dropWs t) else none

/-- Matcher for `function\s+NAME\s*\(` on a text suffix. -/
def matchA (name : List Char) (t : List Char) : Option (List Char) := do
  let t ← litp ("function".data) t
  let t ← dropWs1 t
  let t ← litp name t
  litp ['('] (dropWs t)

/-- Greedy `.*=>`: `.` cannot cross a line terminator, and the greedy `.*`
makes the match end after the last `=>` of the current line. Returns the
suffix after that `=>`. -/
def lastArrow (t : List Char) : Option (List Char) :=
  let region := t.takeWhile (fun c => ¬ isNewlineChar c)
  let hits := (List.range region.length).filter
    (fun j => ("=>".data).isPrefixOf (region.drop j))
  match hits.getLast? with
  | some j => some (t.drop (j + 2))
  | none => none

/-- Matcher for `const\s+NAME\s*=.*=>` on a text suffix. -/
def matchB (name : List Char) (t : List Char) : Option (List Char) := do
  let t ← litp ("const".data) t
  let t ← dropWs1 t
  let t ← litp name t
  let t ← litp ['='] (dropWs t)
  lastArrow t

/-- Greedy `.*\)\s*F` for a follow character `F`: backtracking picks the
rightmost `)` of the current line that is followed (after `\s*`, which may
cross lines) by `F`. Returns the suffix after `F`. -/
def closeParenThen (follow : Char) (t : List Char) : Option (List Char) :=
  let region := t.takeWhile (fun c => ¬ isNewlineChar c)
  let ok := fun (j : Nat) =>
    decide (region.getD j ' ' = ')') &&
      (match dropWs (t.drop (j + 1)) with
       | c :: _ => decide (c = follow)
       | [] => false)
  match ((List.range region.length).filter ok).getLast? with
  | some j => litp [follow] (dropWs (t.drop (j + 1)))
  | none => none

/-- Matcher for `NAME\s*\(.*\)\s*{` on a text suffix. -/
def matchC (name : List Char) (t : List Char) : Option (List Char) := do
  let t ← litp name t
  let t ← litp ['('] (dropWs t)
  closeParenThen '{' t

/-- Matcher for `NAME\s*\(.*\)\s*:\s*` on a text suffix (the trailing `\s*`
is consumed greedily, which fixes where the next `exec` resumes). -/
def matchD (name : List Char) (t : List Char) : Option (List Char) := do
  let t ← litp name t
  let t ← litp ['('] (dropWs t)
  let t ← closeParenThen ':' t
  some (dropWs t)

/-- Leftmost match search, as `exec` with the `g` flag performs from
`lastIndex`: the least `i' ≥ i` where the matcher succeeds, returning the
match's start and end indices. `fuel` bounds the scan (callers pass more
than the text length). -/
def findFrom (m : List Char → Option (List Char)) (text : List Char) :
    Nat → Nat → Option (Nat × Nat)
  | 0, _ => none
  | fuel + 1, i =>
    match m (text.drop i) with
    | some rem => some (i, text.length - rem.length)
    | none => if i ≥ text.length then none else findFrom m text fuel (i + 1)

/-- First match of a pattern at or after index `i`. -/
def execFirstFrom (m : List Char → Option (List Char)) (text : List Char)
    (i : Nat) : Option (Nat × Nat) :=
  findFrom m text (text.length + 1) i

/-- Embeds `content.split('\n')` (JavaScript `String.split`). -/
def splitNl : List Char → List (List Char)
  | [] => [[]]
  | c :: r =>
    match splitNl r with
    | s :: ss => if c = '\n' then [] :: s :: ss else (c :: s) :: ss
    | [] => if c = '\n' then [[], []] else [[c]]

/-- Embeds `document.positionAt(offset).line` for a document whose text is
its lines joined with `'\n'`: the number of newlines before the offset. -/
def lineOfOffset (doc : List String) (idx : Nat) : Nat :=
  ((joinLines doc).data.take idx).count '\n'

/-- Embeds the `FunctionDefinition` record built by the resolver (the
`uri` is a host-assigned document identifier; the degenerate
`range = (startPos, startPos)` of Tier B is not carried). -/
structure FunctionDefinition where
  name : String
  uri : Nat
  content : String
  startLine : Nat
  endLine : Nat
deriving DecidableEq

/-- Per-pattern `while ((match = pattern.exec(text)) !== null)` loop of
`findDefinitionInDocument`: at each match, extract the content from the
match's line; a truthy (non-empty) content is returned as a definition
with `endLine = lineNum + content.split('\n').length - 1`, otherwise the
loop resumes at the match's end. -/
def tierBLoop (uri : Nat) (doc : List String) (fname : String)
    (m : List Char → Option (List Char)) :
    Nat → Nat → Option FunctionDefinition
  | 0, _ => none
  | fuel + 1, i =>
    match execFirstFrom m ((joinLines doc).data) i with
    | none => none
    | some (idx, stop) =>
      let lineNum := lineOfOffset doc idx
      match extractFunctionContent doc lineNum with
      | some content =>
        if content.length > 0 then
          some ⟨fname, uri, content, lineNum,
                lineNum + (splitNl content.data).length - 1⟩
        else tierBLoop uri doc fname m fuel stop
      | none => tierBLoop uri doc fname m fuel stop

/-- Embeds `findDefinitionInDocument(document, functionName)` from the
resolver (src/README.md lines 131-167): the four patterns are tried in
order, each with a full `exec` loop, first produced definition wins. -/
def findDefinitionInDocument (uri : Nat) (doc : List String)
    (fname : String) : Option FunctionDefinition :=
  let n := fname.data
  let fuel := (joinLines doc).data.length + 1 + 1
  match tierBLoop uri doc fname (matchA n) fuel 0 with
  | some d => some d
  | none =>
    match tierBLoop uri doc fname (matchB n) fuel 0 with
    | some d => some d
    | none =>
      match tierBLoop uri doc fname (matchC n) fuel 0 with
      | some d => some d
      | none => tierBLoop uri doc fname (matchD n) fuel 0

/-! ## Tier A of the resolver: `resolveFunctionDefinition` (src/README.md) -/

/-- Embeds `vscode.SymbolInformation` as used by the resolver: a name, a
`SymbolKind` (its numeric value), and a location (`uri` as a host-assigned
document identifier plus a range). -/
structure SymbolInformation where
  name : String
  kind : Nat
  uri : Nat
  range : Range
deriving DecidableEq

/-- Numeric `vscode.SymbolKind` values used by this code base. -/
def SymbolKind.Method : Nat := 5

/-- Numeric value of `vscode.SymbolKind.Constructor`. -/
def SymbolKind.Constructor : Nat := 8

/-- Numeric value of `vscode.SymbolKind.Function`. -/
def SymbolKind.Function : Nat := 11

/-- Numeric value of `vscode.SymbolKind.Variable`. -/
def SymbolKind.Variable : Nat := 12

/-- The resolver's filter: `s.kind === Function || s.kind === Method`. -/
def isFnOrMethodKind (k : Nat) : Bool :=
  k == SymbolKind.Function || k == SymbolKind.Method

/-- Embeds `document.offsetAt(position)` for a `'\n'`-joined document;
like VS Code, the position is validated by clamping the line to an
existing line and the character to that line's length. -/
def offsetAt (doc : List String) (p : Pos) : Nat :=
  let l := min p.line (doc.length - 1)
  ((doc.take l).map (fun s => s.length + 1)).sum
    + min p.character (doc.getD l "").length

/-- Embeds `document.getText(range)`: the slice of the joined text between
the offsets of the range's endpoints. -/
def getTextInRange (doc : List String) (r : Range) : String :=
  ⟨((joinLines doc).data.take (offsetAt doc r.stop)).drop (offsetAt doc r.start)⟩

/-- Outcome of the `executeWorkspaceSymbolProvider` host call as observed
by the resolver: a thrown error (caught by the surrounding `try`), or a
result that may be `undefined`/`null` or a list of symbols. -/
inductive SymbolsOutcome where
  | err : SymbolsOutcome
  | ok (syms : Option (List SymbolInformation)) : SymbolsOutcome

/-- Embeds `resolveFunctionDefinition(functionName, sourceDocument)` from
src/README.md lines 73-126. `openDoc` models the read-only
`vscode.workspace.openTextDocument` accessor from a uri to that document's
lines. A thrown symbol-provider error reaches the `catch`, which logs and
returns `null`. An `undefined` or empty symbol list falls back to
`findDefinitionInDocument` on the originating document. Otherwise the
symbols are filtered to function/method kinds; if none remain the result
is `null`; else the first is used: its content is the body extracted from
its start line, or, when extraction fails, the raw text of its reported
range, and a falsy (empty) content yields `null`. -/
def resolveFunctionDefinition (openDoc : Nat → List String)
    (outcome : SymbolsOutcome) (fname : String) (srcUri : Nat)
    (srcDoc : List String) : Option FunctionDefinition :=
  match outcome with
  | .err => none
  | .ok none => findDefinitionInDocument srcUri srcDoc fname
  | .ok (some syms) =>
    if syms.isEmpty then findDefinitionInDocument srcUri srcDoc fname
    else
      match syms.filter (fun s => isFnOrMethodKind s.kind) with
      | [] => none
      | s :: _ =>
        let doc := openDoc s.uri
        let content :=
          (extractFunctionContent doc s.range.start.line).getD
            (getTextInRange doc s.range)
        if content.length = 0 then none
        else some ⟨fname, s.uri, content, s.range.start.line, s.range.stop.line⟩

/-! ## The enclosing-scope locator: `findEnclosingFunctionRange` (src/parser.ts)

The document outline is a tree of `vscode.DocumentSymbol` values; it is
embedded as a pair of mutual inductives so that all functions over it are
structurally recursive. The locator's Tier A walks this tree
(`searchSymbols` in src/parser.ts lines 128-146); the brace-matching
fallback `findEnclosingFunctionByBraces` is invoked only when the outline
is missing, empty, or yields no result, and is outside the claims below.
-/

mutual
/-- Embeds `vscode.DocumentSymbol`: name, kind, range and children. -/
inductive DocSym where
  | mk (name : String) (kind : Nat) (range : Range) (children : DocSymList) : DocSym
/-- A list of document symbols (the `children` of a node, or the roots). -/
inductive DocSymList where
  | nil : DocSymList
  | cons (s : DocSym) (rest : DocSymList) : DocSymList
end

/-- Name of an outline node. -/
def DocSym.name : DocSym → String
  | .mk n _ _ _ => n

/-- Kind of an outline node. -/
def DocSym.kind : DocSym → Nat
  | .mk _ k _ _ => k

/-- Range of an outline node. -/
def DocSym.range : DocSym → Range
  | .mk _ _ r _ => r

/-- Children of an outline node. -/
def DocSym.children : DocSym → DocSymList
  | .mk _ _ _ c => c

/-- The locator's `functionKinds` set: Function, Method, Constructor. -/
def isFunctionKind (k : Nat) : Bool :=
  k == SymbolKind.Function || k == SymbolKind.Method
    || k == SymbolKind.Constructor

/-- Embeds the `if (!best || rangeSize(cand) < rangeSize(best))` update
used for both the node itself and a child result in `searchSymbols`. -/
def betterOf (cur : Option (Range × String)) (cand : Range × String) :
    Option (Range × String) :=
  match cur with
  | none => some cand
  | some b => if rangeSize cand.1 < rangeSize b.1 then some cand else some b

mutual
/-- Modelled from the spec: `searchSymbols` inside
`findEnclosingFunctionRange` (src/parser.ts lines 128-146) computes only
the best *range*; the `EnclosingScope.name` that `XrayPanel.updateForEditor`
(src/panel.ts) reads comes from a parser variant missing from src/, so per
the spec's `EnclosingScope: {range, name}` the selected node's name is
carried alongside the range. The selection logic is the source's: process
the symbols in order; for a node whose range contains the position, a
function-kind node replaces the current best when strictly smaller by
`rangeSize`, and the recursive result over its children (computed with a
fresh best) replaces the current best under the same comparison. -/
def searchSym (pos : Pos) (best : Option (Range × String)) :
    DocSym → Option (Range × String)
  | .mk n k r children =>
    if rangeContains r pos then
      let b2 := if isFunctionKind k then betterOf best (r, n) else best
      match searchList pos none children with
      | some c => betterOf b2 c
      | none => b2
    else best
/-- Modelled from the spec: the `for (const sym of syms)` loop of
`searchSymbols`, threading the current best through the list (see
`Kodx.searchSym`). -/
def searchList (pos : Pos) (best : Option (Range × String)) :
    DocSymList → Option (Range × String)
  | .nil => best
  | .cons s rest => searchList pos (searchSym pos best s) rest
end

mutual
/-- All nodes of a symbol's subtree, the symbol itself first. -/
def nodesS : DocSym → List DocSym
  | .mk n k r c => .mk n k r c :: nodesL c
/-- All nodes of a forest's subtrees. -/
def nodesL : DocSymList → List DocSym
  | .nil => []
  | .cons s rest => nodesS s ++ nodesL rest
end

mutual
/-- Well-formedness of an outline node, as document symbol providers
produce them: every descendant's range is contained (pointwise) in the
node's range, recursively. -/
def wfS : DocSym → Prop
  | .mk _ _ r c =>
    (∀ d ∈ nodesL c, ∀ p, rangeContains d.range p = true →
      rangeContains r p = true) ∧ wfL c
/-- Well-formedness of an outline forest. -/
def wfL : DocSymList → Prop
  | .nil => True
  | .cons s rest => wfS s ∧ wfL rest
end

mutual
/-- Size of a symbol's subtree (for strong induction). -/
def sizeS : DocSym → Nat
  | .mk _ _ _ c => sizeL c + 1
/-- Size of a forest (for strong induction). -/
def sizeL : DocSymList → Nat
  | .nil => 0
  | .cons s rest => sizeS s + sizeL rest
end

/-! ## Call-site extraction (src/parser.ts) and panel de-duplication (src/panel.ts) -/

/-- JavaScript `\w`: ASCII letters, digits, underscore. -/
def isWordChar (c : Char) : Bool :=
  c.isAlpha || c.isDigit || c = '_'

/-- First character class of the call regex name: `[a-zA-Z_$]`. -/
def identStartChar (c : Char) : Bool :=
  c.isAlpha || c = '_' || c = '$'

/-- Continuation class of the call regex name: `[\w$]`. -/
def identContChar (c : Char) : Bool :=
  isWordChar c || c = '$'

/-- JavaScript `\b` at index `i`: the word-char status of the character at
`i` differs from that of the preceding character (or of "no character" at
the text boundaries). -/
def wordBoundaryAt (text : List Char) (i : Nat) : Bool :=
  let curW := match text.drop i with
    | c :: _ => isWordChar c
    | [] => false
  let prevW := if i = 0 then false
    else match text.drop (i - 1) with
      | c :: _ => isWordChar c
      | [] => false
  curW != prevW

/-- Match of `\b([a-zA-Z_$][\w$]*)\s*\(` starting exactly at index `i`:
returns the captured name and the match's end index. The greedy name and
whitespace runs are deterministic because `(` is in neither class. -/
def matchCallAt (text : List Char) (i : Nat) : Option (String × Nat) :=
  if wordBoundaryAt text i then
    match text.drop i with
    | c :: rest =>
      if identStartChar c then
        let nm := c :: rest.takeWhile identContChar
        let after := dropWs (rest.dropWhile identContChar)
        match after with
        | '(' :: _ => some (⟨nm⟩, text.length - after.length + 1)
        | _ => none
      else none
    | [] => none
  else none

/-- Leftmost call-regex match at or after index `i` (cf. `exec` with the
`g` flag): name, start index, end index. -/
def findCallFrom (text : List Char) : Nat → Nat → Option (String × Nat × Nat)
  | 0, _ => none
  | fuel + 1, i =>
    match matchCallAt text i with
    | some (nm, stop) => some (nm, i, stop)
    | none => if i ≥ text.length then none else findCallFrom text fuel (i + 1)

/-- The `exec` loop of `parseFunctionCallsInRange`: collects successive
matches, resuming each search at the previous match's end. -/
def parseCallsGo (text : List Char) : Nat → Nat → List (String × Nat)
  | 0, _ => []
  | fuel + 1, i =>
    match findCallFrom text (text.length + 1) i with
    | none => []
    | some (nm, idx, stop) => (nm, idx) :: parseCallsGo text fuel stop

/-- The denylist of `isKeywordOrBuiltin` (src/parser.ts lines 239-256). -/
def keywordsAndBuiltins : List String :=
  ["if", "else", "for", "while", "do", "switch", "case", "break", "continue",
   "return", "throw", "try", "catch", "finally", "new", "delete", "typeof",
   "instanceof", "in", "of", "void", "this", "class", "extends", "super",
   "import", "export", "from", "as", "default", "function", "const", "let",
   "var", "async", "await", "yield", "static", "get", "set", "constructor",
   "console", "window", "document", "parseInt", "parseFloat", "isNaN",
   "Array", "Object", "String", "Number", "Boolean", "Error", "RegExp",
   "Math", "Date", "JSON", "Promise", "Map", "Set", "WeakMap", "WeakSet",
   "Symbol", "BigInt", "Proxy", "Reflect", "DataView", "ArrayBuffer",
   "TypedArray", "require", "exports", "module", "process", "global",
   "setInterval", "setTimeout", "clearInterval", "clearTimeout"]

/-- Embeds `isKeywordOrBuiltin(name)`. -/
def isKeywordOrBuiltin (n : String) : Bool :=
  keywordsAndBuiltins.contains n

/-- Embeds `parseFunctionCallsInRange` (src/parser.ts lines 207-234)
applied to the scope's already-sliced text: each match of
`\b([a-zA-Z_$][\w$]*)\s*\(` becomes a call site `(name, offset)` unless
the name is denylisted (the source filters inside the loop via `continue`,
which collects the same list; offsets are kept relative to the range text
rather than mapped back through `positionAt`). -/
def parseFunctionCallsInRange (rangeText : String) : List (String × Nat) :=
  (parseCallsGo rangeText.data (rangeText.data.length + 1) 0).filter
    (fun c => ¬ isKeywordOrBuiltin c.1)

/-- Embeds the de-duplication filter of `XrayPanel.updateForEditor`
(src/panel.ts lines 88-95): drop calls named like the enclosing function,
drop names already seen, record and keep first occurrences. -/
def dedupCalls (enclosingName : String) (seen : List String) :
    List (String × Nat) → List (String × Nat)
  | [] => []
  | c :: rest =>
    if c.1 = enclosingName then dedupCalls enclosingName seen rest
    else if c.1 ∈ seen then dedupCalls enclosingName seen rest
    else c :: dedupCalls enclosingName (c.1 :: seen) rest

/-! ## Lemmas about the shared body-extraction scan -/

theorem scanLine_closed_mem : ∀ (cs : List Char) (bc : Int) (st : Bool),
    scanLine bc st cs = .closed → '}' ∈ cs := by
  intro cs
  induction cs with
  | nil => intro bc st h; simp [scanLine] at h
  | cons c cs ih =>
    intro bc st h
    simp only [scanLine] at h
    split at h
    · exact List.mem_cons_of_mem _ (ih _ _ h)
    · split at h
      · split at h
        · simp_all
        · exact List.mem_cons_of_mem _ (ih _ _ h)
      · exact List.mem_cons_of_mem _ (ih _ _ h)

theorem joinLines_cons_cons (a b : String) (t : List String) :
    joinLines (a :: b :: t) = a ++ "\n" ++ joinLines (b :: t) := rfl

theorem length_joinLines_pos_of_two (a b : String) (t : List String) :
    0 < (joinLines (a :: b :: t)).length := by
  rw [joinLines_cons_cons, String.length_append, String.length_append]
  have h1 : ("\n" : String).length = 1 := rfl
  omega

theorem substrContains_pos (s pat : String) (h : substrContains s pat = true)
    (hp : 0 < pat.length) : 0 < s.length := by
  by_contra hs
  have hd : s.data = [] := by
    have hl : s.data.length = 0 := by
      have : s.length = s.data.length := rfl
      omega
    exact List.eq_nil_of_length_eq_zero hl
  unfold substrContains at h
  rw [hd] at h
  simp [List.tails] at h
  have hz : pat.length = 0 := by
    have he : pat.length = pat.data.length := rfl
    rw [he, h]
    rfl
  omega

theorem joinLines_append_singleton : ∀ (acc : List String) (t : String),
    ∃ pre, joinLines (acc ++ [t]) = pre ++ t := by
  intro acc
  induction acc with
  | nil => intro t; exact ⟨"", rfl⟩
  | cons a as ih =>
    intro t
    obtain ⟨pre, hp⟩ := ih t
    cases as with
    | nil => exact ⟨a ++ "\n", by simp [joinLines, String.append_assoc]⟩
    | cons b bs =>
      refine ⟨a ++ "\n" ++ pre, ?_⟩
      have h1 : (a :: b :: bs) ++ [t] = a :: b :: (bs ++ [t]) := rfl
      have h2 : (b :: bs) ++ [t] = b :: (bs ++ [t]) := rfl
      rw [h1, joinLines_cons_cons, ← h2, hp]
      simp [String.append_assoc]

theorem extractGo_spec : ∀ (rem : List String) (i : Nat) (bc : Int) (st : Bool)
    (acc : List String) (c : String) (e : Nat),
    extractGo rem i bc st acc = some (c, e) →
    i ≤ e ∧ e - i < rem.length ∧
      ∃ pre, c = pre ++ substringToFirstCloseBrace (rem.getD (e - i) "") := by
  intro rem
  induction rem with
  | nil => intro i bc st acc c e h; simp [extractGo] at h
  | cons l rest ih =>
    intro i bc st acc c e h
    simp only [extractGo] at h
    split at h
    · rw [Option.some.injEq, Prod.mk.injEq] at h
      obtain ⟨rfl, rfl⟩ := h
      refine ⟨le_refl i, by simp, ?_⟩
      simpa using joinLines_append_singleton acc (substringToFirstCloseBrace l)
    · obtain ⟨h1, h2, pre, h3⟩ := ih (i + 1) _ _ _ c e h
      refine ⟨by omega, by simp; omega, ?_⟩
      have hgd : (l :: rest).getD (e - i) "" = rest.getD (e - (i + 1)) "" := by
        have hei : e - i = (e - (i + 1)) + 1 := by omega
        rw [hei, List.getD_cons_succ]
      rw [hgd]
      exact ⟨pre, h3⟩

theorem extractContentGo_pos : ∀ (rem : List String) (first : Bool) (bc : Int)
    (st : Bool) (acc : List String) (c : String),
    extractContentGo rem first bc st acc = some c → 0 < c.length := by
  intro rem
  induction rem with
  | nil => intro first bc st acc c h; simp [extractContentGo] at h
  | cons l rest ih =>
    intro first bc st acc c h
    simp only [extractContentGo] at h
    split at h
    · repeat' split at h
      all_goals
        first
        | (rename_i hlen
           rw [Option.some.injEq] at h
           subst h
           omega)
        | simp at h
    · exact ih _ _ _ _ _ h

theorem joinLines_pos_of_mem_pos : ∀ (xs : List String) (x : String),
    x ∈ xs → 0 < x.length → 0 < (joinLines xs).length := by
  intro xs x hx hpos
  cases xs with
  | nil => simp at hx
  | cons a t =>
    cases t with
    | nil =>
      have : x = a := by simpa using hx
      subst this
      simpa [joinLines] using hpos
    | cons b t => exact length_joinLines_pos_of_two a b t

theorem getLastD_mem : ∀ (xs : List String) (d : String),
    xs ≠ [] → xs.getLastD d ∈ xs := by
  intro xs
  induction xs with
  | nil => intro d h; exact absurd rfl h
  | cons a t ih =>
    intro d _
    cases t with
    | nil => simp [List.getLastD]
    | cons b s =>
      have h1 : (a :: b :: s).getLastD d = (b :: s).getLastD a := by
        simp [List.getLastD]
      rw [h1]
      exact List.mem_cons_of_mem _ (ih a (by simp))

theorem extract_isNone_iff : ∀ (rem : List String) (i : Nat) (bc : Int)
    (st : Bool) (acc acc2 : List String) (first : Bool),
    (first = true ∨ acc2 ≠ []) →
    (extractGo rem i bc st acc = none ↔
      extractContentGo rem first bc st acc2 = none) := by
  intro rem
  induction rem with
  | nil => intro i bc st acc acc2 first _; simp [extractGo, extractContentGo]
  | cons l rest ih =>
    intro i bc st acc acc2 first hinv
    simp only [extractGo, extractContentGo]
    cases hs : scanLine bc st l.data with
    | closed =>
      simp only [hs]
      have hl : 0 < l.length := by
        have hm : '}' ∈ l.data := scanLine_closed_mem _ _ _ hs
        have hne : l.data ≠ [] := by intro hn; rw [hn] at hm; simp at hm
        have hp : 0 < l.data.length := List.length_pos.mpr hne
        have he : l.length = l.data.length := rfl
        omega
      constructor
      · intro h; simp at h
      · intro h
        exfalso
        repeat' split at h
        all_goals
          first
          | exact Option.noConfusion h
          | (rename_i hA hB hlen
             first
             | exact hlen (joinLines_pos_of_mem_pos _ l (by simp) hl)
             | (refine hlen (joinLines_pos_of_mem_pos _ _
                  (getLastD_mem _ "" ?_) (substrContains_pos _ _ hB hl))
                rcases hinv with hf | hne
                · exact absurd hf hA
                · exact hne))
    | next bc' st' =>
      simp only [hs]
      apply ih
      right
      rcases hinv with h | h
      · subst h; simp
      · cases first <;> simp [h]

/-- C4 counterexample: on the two-line input
`["function f() {", "} // end"]` both extractors succeed, but the
parser-side `extractFunctionDefinition` truncates the terminating line at
its first `}` while the resolver-side `extractFunctionContent` keeps the
whole line, so the contents differ and the two implementations are not the
same function. -/
theorem extractors_content_differ_cex :
    extractFunctionDefinition ["function f() \x7b", "\x7d // end"] 0 =
      some ("function f() \x7b\n\x7d", 1) ∧
    extractFunctionContent ["function f() \x7b", "\x7d // end"] 0 =
      some ("function f() \x7b\n\x7d // end") ∧
    (extractFunctionDefinition ["function f() \x7b", "\x7d // end"] 0).map
        Prod.fst ≠
      extractFunctionContent ["function f() \x7b", "\x7d // end"] 0 := by
  refine ⟨by decide, by decide, by decide⟩

/-- C4 (amended): the parser-side `extractFunctionDefinition` and the
resolver-side `extractFunctionContent` agree on failure — for every
(line sequence, start-line) input one returns NotFound exactly when the
other does — but on success their contents differ in general (see the
counterexample). -/
theorem extractors_agree_on_failure :
    ∀ (lines : List String) (start : Nat),
      extractFunctionDefinition lines start = none ↔
        extractFunctionContent lines start = none := by
  intro lines start
  exact extract_isNone_iff (lines.drop start) start 0 false [] [] true
    (Or.inl rfl)

/-- C9: the body extractor is total (it is a terminating Lean function),
the terminating line it reports never lies past the document's line count,
and an unterminated block — the spec's
`BodyExtractor(["function f() {", "  return 1;"], 0)` example — yields
NotFound in both implementations. -/
theorem bodyExtractor_bounded_termination :
    (∀ (lines : List String) (start : Nat) (c : String) (e : Nat),
      extractFunctionDefinition lines start = some (c, e) →
        start ≤ e ∧ e < lines.length) ∧
    extractFunctionDefinition ["function f() \x7b", "  return 1;"] 0 = none ∧
    extractFunctionContent ["function f() \x7b", "  return 1;"] 0 = none := by
  refine ⟨?_, by decide, by decide⟩
  intro lines start c e h
  obtain ⟨h1, h2, -⟩ := extractGo_spec (lines.drop start) start 0 false [] c e h
  rw [List.length_drop] at h2
  omega

/-- C9 witness: the bound instantiated on a concrete three-line document. -/
theorem bodyExtractor_bounded_termination_witness :
    0 ≤ 2 ∧
      2 < (["function foo() \x7b", "  return 1;", "\x7d"] : List String).length :=
  bodyExtractor_bounded_termination.1 ["function foo() \x7b", "  return 1;", "\x7d"]
    0 ("function foo() \x7b\n  return 1;\n\x7d") 2 (by decide)

/-- C10: on success the parser-side extractor's content always ends with
the terminating line truncated at that line's first `}`; concretely, for
the one-line body `function f() { if (x) { y } }` the depth-zero closing
brace is the second `}` of the line, yet the returned content stops at the
first one. -/
theorem parser_truncates_at_first_close_brace :
    extractFunctionDefinition ["function f() \x7b if (x) \x7b y \x7d \x7d"] 0 =
      some ("function f() \x7b if (x) \x7b y \x7d", 0) ∧
    (∀ (lines : List String) (start : Nat) (c : String) (e : Nat),
      extractFunctionDefinition lines start = some (c, e) →
        ∃ pre, c = pre ++ substringToFirstCloseBrace (lines.getD e "")) := by
  refine ⟨by decide, ?_⟩
  intro lines start c e h
  obtain ⟨h1, h2, pre, h3⟩ := extractGo_spec (lines.drop start) start 0 false []
    c e h
  refine ⟨pre, ?_⟩
  have hgd : (lines.drop start).getD (e - start) "" = lines.getD e "" := by
    rw [List.getD_eq_getElem?_getD, List.getD_eq_getElem?_getD,
      List.getElem?_drop]
    have : start + (e - start) = e := by omega
    rw [this]
  rw [← hgd]
  exact h3

/-- C10 witness: the truncation shape instantiated on the concrete
one-line input. -/
theorem parser_truncates_at_first_close_brace_witness :
    ∃ pre, ("function f() \x7b if (x) \x7b y \x7d" : String) =
      pre ++ substringToFirstCloseBrace
        ((["function f() \x7b if (x) \x7b y \x7d \x7d"] : List String).getD 0 "") :=
  parser_truncates_at_first_close_brace.2
    ["function f() \x7b if (x) \x7b y \x7d \x7d"] 0
    ("function f() \x7b if (x) \x7b y \x7d") 0 (by decide)

/-! ## Claims about the resolver's tier structure -/

theorem extractFunctionContent_pos (doc : List String) (startLine : Nat)
    (c : String) (h : extractFunctionContent doc startLine = some c) :
    0 < c.length :=
  extractContentGo_pos _ _ _ _ _ _ h

/-- C1 counterexample: the workspace index returns one symbol for `foo`,
but of Variable kind; Tier A yields no usable function/method symbol, yet
`resolveFunctionDefinition` reports NotFound without attempting the Tier B
heuristic, which would have succeeded on the originating document. -/
theorem tierA_unusable_symbols_no_fallback_cex :
    resolveFunctionDefinition
        (fun _ => ["function foo() \x7b", "  return 1;", "\x7d"])
        (.ok (some [⟨"foo", 12, 0, ⟨⟨0, 0⟩, ⟨2, 1⟩⟩⟩])) "foo" 0
        ["function foo() \x7b", "  return 1;", "\x7d"] = none ∧
    findDefinitionInDocument 0 ["function foo() \x7b", "  return 1;", "\x7d"]
        "foo" =
      some ⟨"foo", 0, "function foo() \x7b\n  return 1;\n\x7d", 0, 2⟩ := by
  constructor
  · decide
  · decide

/-- C1 (amended): Tier B is attempted exactly when the symbol index
returns `undefined` or an empty list; when the index returns a non-empty
list containing no function/method-kind symbol, the resolver returns
NotFound without attempting Tier B. -/
theorem tierB_fallback_policy :
    (∀ (openDoc : Nat → List String) (fname : String) (srcUri : Nat)
       (srcDoc : List String),
       resolveFunctionDefinition openDoc (.ok none) fname srcUri srcDoc =
         findDefinitionInDocument srcUri srcDoc fname) ∧
    (∀ (openDoc : Nat → List String) (fname : String) (srcUri : Nat)
       (srcDoc : List String),
       resolveFunctionDefinition openDoc (.ok (some [])) fname srcUri srcDoc =
         findDefinitionInDocument srcUri srcDoc fname) ∧
    (∀ (openDoc : Nat → List String) (fname : String) (srcUri : Nat)
       (srcDoc : List String) (syms : List SymbolInformation),
       syms ≠ [] →
       syms.filter (fun s => isFnOrMethodKind s.kind) = [] →
       resolveFunctionDefinition openDoc (.ok (some syms)) fname srcUri srcDoc =
         none) := by
  refine ⟨fun _ _ _ _ => rfl, fun _ _ _ _ => rfl, ?_⟩
  intro openDoc fname srcUri srcDoc syms hne hfil
  cases syms with
  | nil => exact absurd rfl hne
  | cons a t =>
    simp only [resolveFunctionDefinition, List.isEmpty_cons, Bool.false_eq_true,
      if_false]
    rw [hfil]

/-- C1 witness: the no-fallback branch applied to a concrete Variable-kind
symbol list. -/
theorem tierB_fallback_policy_witness :
    resolveFunctionDefinition (fun _ => [])
        (.ok (some [⟨"foo", 12, 0, ⟨⟨0, 0⟩, ⟨2, 1⟩⟩⟩])) "foo" 5 ["x"] = none :=
  tierB_fallback_policy.2.2 (fun _ => []) "foo" 5 ["x"]
    [⟨"foo", 12, 0, ⟨⟨0, 0⟩, ⟨2, 1⟩⟩⟩] (by simp) (by decide)

/-- C2 counterexample: when the symbol-index call errors, the resolver
returns NotFound directly — it does not fall back to the Tier B heuristic,
although Tier B on the originating document would have produced a
definition. -/
theorem index_error_no_heuristic_cex :
    resolveFunctionDefinition
        (fun _ => ["function foo() \x7b", "  return 1;", "\x7d"]) .err "foo" 0
        ["function foo() \x7b", "  return 1;", "\x7d"] = none ∧
    findDefinitionInDocument 0 ["function foo() \x7b", "  return 1;", "\x7d"]
        "foo" ≠ none := by
  constructor
  · rfl
  · decide

/-- C2 (amended): when the symbol-index call errors, the `catch` block
swallows the error and `resolveFunctionDefinition` returns NotFound for
every input — the error never surfaces to the caller, but the heuristic
tier is not attempted either. -/
theorem index_error_returns_notfound :
    ∀ (openDoc : Nat → List String) (fname : String) (srcUri : Nat)
      (srcDoc : List String),
      resolveFunctionDefinition openDoc .err fname srcUri srcDoc = none :=
  fun _ _ _ _ => rfl

/-- C6: when the index returns symbols among which at least one is of
function or method kind, the resolver's result does not depend on the
originating document (so it never falls through to Tier B), is computed
from the first function/method-kind symbol in index order alone, and when
body extraction at that symbol's start line succeeds the result is exactly
that symbol's extracted body. -/
theorem tierA_first_symbol_no_fallthrough :
    ∀ (openDoc : Nat → List String) (fname : String) (srcUri1 : Nat)
      (srcDoc1 : List String) (srcUri2 : Nat) (srcDoc2 : List String)
      (syms : List SymbolInformation) (s : SymbolInformation)
      (rest : List SymbolInformation),
      syms.filter (fun x => isFnOrMethodKind x.kind) = s :: rest →
      (resolveFunctionDefinition openDoc (.ok (some syms)) fname srcUri1
          srcDoc1 =
        resolveFunctionDefinition openDoc (.ok (some syms)) fname srcUri2
          srcDoc2) ∧
      (resolveFunctionDefinition openDoc (.ok (some syms)) fname srcUri1
          srcDoc1 =
        resolveFunctionDefinition openDoc (.ok (some [s])) fname srcUri1
          srcDoc1) ∧
      (∀ c, extractFunctionContent (openDoc s.uri) s.range.start.line = some c →
        resolveFunctionDefinition openDoc (.ok (some syms)) fname srcUri1
            srcDoc1 =
          some ⟨fname, s.uri, c, s.range.start.line, s.range.stop.line⟩) := by
  intro openDoc fname u1 d1 u2 d2 syms s rest hfil
  have hs : isFnOrMethodKind s.kind = true := by
    have hmem : s ∈ syms.filter (fun x => isFnOrMethodKind x.kind) := by
      rw [hfil]
      exact List.mem_cons_self _ _
    exact (List.mem_filter.mp hmem).2
  cases syms with
  | nil => simp at hfil
  | cons a t =>
    refine ⟨?_, ?_, ?_⟩
    · simp only [resolveFunctionDefinition, List.isEmpty_cons,
        Bool.false_eq_true, if_false]
    · simp only [resolveFunctionDefinition, List.isEmpty_cons,
        Bool.false_eq_true, if_false]
      rw [hfil]
      simp [List.filter_cons, hs]
    · intro c hc
      simp only [resolveFunctionDefinition, List.isEmpty_cons,
        Bool.false_eq_true, if_false]
      rw [hfil]
      dsimp only
      rw [hc]
      simp only [Option.getD_some]
      have hpos := extractFunctionContent_pos _ _ _ hc
      rw [if_neg (by omega)]

/-- C6 witness: Tier A applied to a concrete single-element symbol list
whose home document is distinct from the originating one. -/
theorem tierA_first_symbol_no_fallthrough_witness :
    resolveFunctionDefinition
        (fun _ => ["function foo() \x7b", "  return 1;", "\x7d"])
        (.ok (some [⟨"foo", 11, 9, ⟨⟨0, 0⟩, ⟨2, 1⟩⟩⟩])) "foo" 1 ["a"] =
      some ⟨"foo", 9, "function foo() \x7b\n  return 1;\n\x7d", 0, 2⟩ :=
  (tierA_first_symbol_no_fallthrough
      (fun _ => ["function foo() \x7b", "  return 1;", "\x7d"]) "foo" 1 ["a"] 2
      ["b"] [⟨"foo", 11, 9, ⟨⟨0, 0⟩, ⟨2, 1⟩⟩⟩] ⟨"foo", 11, 9, ⟨⟨0, 0⟩, ⟨2, 1⟩⟩⟩
      [] (by decide)).2.2
    ("function foo() \x7b\n  return 1;\n\x7d") (by decide)

/-! ## Claim about the Tier B pattern priority -/

theorem tierBLoop_no_match (uri : Nat) (doc : List String) (fname : String)
    (m : List Char → Option (List Char)) (fuel : Nat)
    (hm : execFirstFrom m ((joinLines doc).data) 0 = none) :
    tierBLoop uri doc fname m (fuel + 1) 0 = none := by
  simp only [tierBLoop, hm]

theorem tierBLoop_first_hit (uri : Nat) (doc : List String) (fname : String)
    (m : List Char → Option (List Char)) (i e : Nat) (c : String)
    (hm : execFirstFrom m ((joinLines doc).data) 0 = some (i, e))
    (hex : extractFunctionContent doc (lineOfOffset doc i) = some c)
    (fuel : Nat) :
    tierBLoop uri doc fname m (fuel + 1) 0 =
      some ⟨fname, uri, c, lineOfOffset doc i,
            lineOfOffset doc i + (splitNl c.data).length - 1⟩ := by
  have hpos := extractFunctionContent_pos _ _ _ hex
  simp only [tierBLoop, hm, hex]
  rw [if_pos (by omega)]

/-- C5 counterexample: Tier B accepts only `const` arrow assignments, not
`let` or `var`: on a document whose sole definition is a `let`-bound
arrow function, `findDefinitionInDocument` finds nothing, while the same
document with `const` resolves. -/
theorem tierB_let_arrow_not_matched_cex :
    findDefinitionInDocument 0 ["let foo = (x) => \x7b", "  return x;", "\x7d"]
        "foo" = none ∧
    findDefinitionInDocument 0 ["const foo = (x) => \x7b", "  return x;", "\x7d"]
        "foo" =
      some ⟨"foo", 0, "const foo = (x) => \x7b\n  return x;\n\x7d", 0, 2⟩ := by
  constructor
  · decide
  · decide

/-- C5 (amended): `findDefinitionInDocument` searches the originating
document in priority order of (a) `function NAME(`, (b) a
`const NAME = … =>` arrow assignment — only the `const` keyword; `let` and
`var` declarations are not matched — (c) `NAME(...) {` method shorthand,
(d) `NAME(...) : ...` typed-signature prefix; the first shape that matches
(with a successful body extraction at its first match) wins: each conjunct
states that when the earlier patterns have no match at all and the given
pattern first matches at offset `i` with a successful extraction, the
result is the definition extracted at `i`'s line. -/
theorem tierB_pattern_priority :
    (∀ (uri : Nat) (doc : List String) (fname : String) (i e : Nat)
       (c : String),
      execFirstFrom (matchA fname.data) ((joinLines doc).data) 0 = some (i, e) →
      extractFunctionContent doc (lineOfOffset doc i) = some c →
      findDefinitionInDocument uri doc fname =
        some ⟨fname, uri, c, lineOfOffset doc i,
              lineOfOffset doc i + (splitNl c.data).length - 1⟩) ∧
    (∀ (uri : Nat) (doc : List String) (fname : String) (i e : Nat)
       (c : String),
      execFirstFrom (matchA fname.data) ((joinLines doc).data) 0 = none →
      execFirstFrom (matchB fname.data) ((joinLines doc).data) 0 = some (i, e) →
      extractFunctionContent doc (lineOfOffset doc i) = some c →
      findDefinitionInDocument uri doc fname =
        some ⟨fname, uri, c, lineOfOffset doc i,
              lineOfOffset doc i + (splitNl c.data).length - 1⟩) ∧
    (∀ (uri : Nat) (doc : List String) (fname : String) (i e : Nat)
       (c : String),
      execFirstFrom (matchA fname.data) ((joinLines doc).data) 0 = none →
      execFirstFrom (matchB fname.data) ((joinLines doc).data) 0 = none →
      execFirstFrom (matchC fname.data) ((joinLines doc).data) 0 = some (i, e) →
      extractFunctionContent doc (lineOfOffset doc i) = some c →
      findDefinitionInDocument uri doc fname =
        some ⟨fname, uri, c, lineOfOffset doc i,
              lineOfOffset doc i + (splitNl c.data).length - 1⟩) ∧
    (∀ (uri : Nat) (doc : List String) (fname : String) (i e : Nat)
       (c : String),
      execFirstFrom (matchA fname.data) ((joinLines doc).data) 0 = none →
      execFirstFrom (matchB fname.data) ((joinLines doc).data) 0 = none →
      execFirstFrom (matchC fname.data) ((joinLines doc).data) 0 = none →
      execFirstFrom (matchD fname.data) ((joinLines doc).data) 0 = some (i, e) →
      extractFunctionContent doc (lineOfOffset doc i) = some c →
      findDefinitionInDocument uri doc fname =
        some ⟨fname, uri, c, lineOfOffset doc i,
              lineOfOffset doc i + (splitNl c.data).length - 1⟩) := by
  refine ⟨?_, ?_, ?_, ?_⟩
  · intro uri doc fname i e c hA hex
    simp only [findDefinitionInDocument]
    rw [tierBLoop_first_hit uri doc fname _ i e c hA hex]
  · intro uri doc fname i e c hA hB hex
    simp only [findDefinitionInDocument]
    rw [tierBLoop_no_match uri doc fname _ _ hA,
      tierBLoop_first_hit uri doc fname _ i e c hB hex]
  · intro uri doc fname i e c hA hB hC hex
    simp only [findDefinitionInDocument]
    rw [tierBLoop_no_match uri doc fname _ _ hA,
      tierBLoop_no_match uri doc fname _ _ hB,
      tierBLoop_first_hit uri doc fname _ i e c hC hex]
  · intro uri doc fname i e c hA hB hC hD hex
    simp only [findDefinitionInDocument]
    rw [tierBLoop_no_match uri doc fname _ _ hA,
      tierBLoop_no_match uri doc fname _ _ hB,
      tierBLoop_no_match uri doc fname _ _ hC,
      tierBLoop_first_hit uri doc fname _ i e c hD hex]

/-- C5 witness: on a document where the method-shorthand shape matches
earlier in the text, the `const` arrow shape still wins by pattern
priority. -/
theorem tierB_pattern_priority_witness :
    findDefinitionInDocument 4
        ["foo() \x7b", "1;", "\x7d", "const foo = () => \x7b", "2;", "\x7d"]
        "foo" =
      some ⟨"foo", 4, "const foo = () => \x7b\n2;\n\x7d", 3, 5⟩ :=
  tierB_pattern_priority.2.1 4
    ["foo() \x7b", "1;", "\x7d", "const foo = () => \x7b", "2;", "\x7d"] "foo"
    13 30 ("const foo = () => \x7b\n2;\n\x7d") (by decide) (by decide)
    (by decide)

/-! ## Claims about the enclosing-scope locator -/

theorem betterOf_eq (cur : Option (Range × String)) (cand x : Range × String)
    (h : betterOf cur cand = some x) : x = cand ∨ cur = some x := by
  cases cur with
  | none =>
    left
    simp only [betterOf, Option.some.injEq] at h
    exact h.symm
  | some b =>
    simp only [betterOf] at h
    split at h
    · left
      rw [Option.some.injEq] at h
      exact h.symm
    · right
      rw [Option.some.injEq] at h
      rw [h]

theorem betterOf_isSome (cur : Option (Range × String)) (cand : Range × String) :
    (betterOf cur cand).isSome := by
  cases cur with
  | none => simp [betterOf]
  | some b =>
    simp only [betterOf]
    split <;> simp

theorem sizeS_pos (s : DocSym) : 1 ≤ sizeS s := by
  cases s with
  | mk n k r c => simp [sizeS]

theorem searchSym_isSome_of_best (s : DocSym) (pos : Pos)
    (best : Option (Range × String)) (hb : best.isSome) :
    (searchSym pos best s).isSome := by
  cases s with
  | mk n k r c =>
    simp only [searchSym]
    by_cases hcont : rangeContains r pos = true
    · rw [if_pos hcont]
      have hb2 : (if isFunctionKind k then betterOf best (r, n) else best).isSome := by
        split
        · exact betterOf_isSome _ _
        · exact hb
      cases hch : searchList pos none c with
      | none => exact hb2
      | some ch => exact betterOf_isSome _ _
    · rw [if_neg hcont]
      exact hb

theorem searchList_isSome_of_best : ∀ (N : Nat) (l : DocSymList) (pos : Pos)
    (best : Option (Range × String)), sizeL l ≤ N → best.isSome →
    (searchList pos best l).isSome := by
  intro N
  induction N with
  | zero =>
    intro l pos best hsz hb
    cases l with
    | nil => exact hb
    | cons s rest =>
      have := sizeS_pos s
      simp [sizeL] at hsz
      omega
  | succ N ih =>
    intro l pos best hsz hb
    cases l with
    | nil => exact hb
    | cons s rest =>
      simp only [searchList]
      have hszr : sizeL rest ≤ N := by
        have := sizeS_pos s
        simp [sizeL] at hsz
        omega
      exact ih rest pos _ hszr (searchSym_isSome_of_best s pos best hb)

theorem search_sound : ∀ (N : Nat),
    (∀ (s : DocSym) (pos : Pos) (best : Option (Range × String))
       (x : Range × String), sizeS s ≤ N → searchSym pos best s = some x →
       best = some x ∨ ∃ d ∈ nodesS s, isFunctionKind d.kind = true ∧
         d.range = x.1 ∧ d.name = x.2 ∧ rangeContains d.range pos = true) ∧
    (∀ (l : DocSymList) (pos : Pos) (best : Option (Range × String))
       (x : Range × String), sizeL l ≤ N → searchList pos best l = some x →
       best = some x ∨ ∃ d ∈ nodesL l, isFunctionKind d.kind = true ∧
         d.range = x.1 ∧ d.name = x.2 ∧ rangeContains d.range pos = true) := by
  intro N
  induction N with
  | zero =>
    constructor
    · intro s pos best x hsz
      have := sizeS_pos s
      omega
    · intro l pos best x hsz hres
      cases l with
      | nil => left; exact hres
      | cons s rest =>
        have := sizeS_pos s
        simp [sizeL] at hsz
        omega
  | succ N ih =>
    have hsym : ∀ (s : DocSym) (pos : Pos) (best : Option (Range × String))
        (x : Range × String), sizeS s ≤ N + 1 → searchSym pos best s = some x →
        best = some x ∨ ∃ d ∈ nodesS s, isFunctionKind d.kind = true ∧
          d.range = x.1 ∧ d.name = x.2 ∧ rangeContains d.range pos = true := by
      intro s pos best x hsz hres
      cases s with
      | mk n k r c =>
        have hszc : sizeL c ≤ N := by
          simp [sizeS] at hsz
          omega
        simp only [searchSym] at hres
        by_cases hcont : rangeContains r pos = true
        · rw [if_pos hcont] at hres
          have hb2 : ∀ (y : Range × String),
              (if isFunctionKind k then betterOf best (r, n) else best) = some y →
              best = some y ∨ ∃ d ∈ nodesS (DocSym.mk n k r c),
                isFunctionKind d.kind = true ∧ d.range = y.1 ∧ d.name = y.2 ∧
                  rangeContains d.range pos = true := by
            intro y hy
            by_cases hk : isFunctionKind k = true
            · rw [if_pos hk] at hy
              rcases betterOf_eq _ _ _ hy with h1 | h1
              · right
                refine ⟨DocSym.mk n k r c, ?_, ?_, ?_, ?_, ?_⟩
                · simp [nodesS]
                · simpa [DocSym.kind] using hk
                · simp [DocSym.range, h1]
                · simp [DocSym.name, h1]
                · simpa [DocSym.range] using hcont
              · left; exact h1
            · rw [if_neg hk] at hy
              left
              exact hy
          cases hch : searchList pos none c with
          | none =>
            rw [hch] at hres
            exact hb2 x hres
          | some ch =>
            rw [hch] at hres
            dsimp only at hres
            rcases betterOf_eq _ _ _ hres with h1 | h1
            · rcases ih.2 c pos none ch hszc hch with h2 | ⟨d, hd, hrest⟩
              · exact Option.noConfusion h2
              · right
                refine ⟨d, ?_, ?_⟩
                · simp only [nodesS]
                  exact List.mem_cons_of_mem _ hd
                · rw [h1]
                  exact hrest
            · exact hb2 x h1
        · rw [if_neg hcont] at hres
          left
          exact hres
    refine ⟨hsym, ?_⟩
    intro l pos best x hsz hres
    cases l with
    | nil => left; exact hres
    | cons s rest =>
      have hs1 := sizeS_pos s
      have hszr : sizeL rest ≤ N := by
        simp [sizeL] at hsz
        omega
      have hss : sizeS s ≤ N + 1 := by
        simp [sizeL] at hsz
        omega
      simp only [searchList] at hres
      rcases ih.2 rest pos (searchSym pos best s) x hszr hres with h1 | ⟨d, hd, hrest⟩
      · rcases hsym s pos best x hss h1 with h2 | ⟨d, hd, hrest⟩
        · left; exact h2
        · right
          refine ⟨d, ?_, hrest⟩
          simp only [nodesL]
          exact List.mem_append_left _ hd
      · right
        refine ⟨d, ?_, hrest⟩
        simp only [nodesL]
        exact List.mem_append_right _ hd

theorem search_complete : ∀ (N : Nat),
    (∀ (s : DocSym) (pos : Pos) (best : Option (Range × String)),
      sizeS s ≤ N → wfS s →
      (∃ d ∈ nodesS s, isFunctionKind d.kind = true ∧
        rangeContains d.range pos = true) →
      (searchSym pos best s).isSome) ∧
    (∀ (l : DocSymList) (pos : Pos) (best : Option (Range × String)),
      sizeL l ≤ N → wfL l →
      (∃ d ∈ nodesL l, isFunctionKind d.kind = true ∧
        rangeContains d.range pos = true) →
      (searchList pos best l).isSome) := by
  intro N
  induction N with
  | zero =>
    constructor
    · intro s pos best hsz
      have := sizeS_pos s
      omega
    · intro l pos best hsz hwf hex
      cases l with
      | nil => simp [nodesL] at hex
      | cons s rest =>
        have := sizeS_pos s
        simp [sizeL] at hsz
        omega
  | succ N ih =>
    have hsym : ∀ (s : DocSym) (pos : Pos) (best : Option (Range × String)),
        sizeS s ≤ N + 1 → wfS s →
        (∃ d ∈ nodesS s, isFunctionKind d.kind = true ∧
          rangeContains d.range pos = true) →
        (searchSym pos best s).isSome := by
      intro s pos best hsz hwf hex
      cases s with
      | mk n k r c =>
        have hszc : sizeL c ≤ N := by
          simp [sizeS] at hsz
          omega
        simp only [wfS] at hwf
        obtain ⟨d, hd, hfk, hdc⟩ := hex
        simp only [nodesS] at hd
        rcases List.mem_cons.mp hd with rfl | hd
        · simp only [DocSym.kind] at hfk
          simp only [DocSym.range] at hdc
          simp only [searchSym]
          rw [if_pos hdc, if_pos hfk]
          cases hch : searchList pos none c with
          | none => exact betterOf_isSome _ _
          | some ch => exact betterOf_isSome _ _
        · have hcont : rangeContains r pos = true := hwf.1 d hd pos hdc
          simp only [searchSym]
          rw [if_pos hcont]
          have hchild : (searchList pos none c).isSome :=
            ih.2 c pos none hszc hwf.2 ⟨d, hd, hfk, hdc⟩
          obtain ⟨ch, hch⟩ := Option.isSome_iff_exists.mp hchild
          rw [hch]
          exact betterOf_isSome _ _
    refine ⟨hsym, ?_⟩
    intro l pos best hsz hwf hex
    cases l with
    | nil => simp [nodesL] at hex
    | cons s rest =>
      have hs1 := sizeS_pos s
      have hszr : sizeL rest ≤ N := by
        simp [sizeL] at hsz
        omega
      have hss : sizeS s ≤ N + 1 := by
        simp [sizeL] at hsz
        omega
      simp only [wfL] at hwf
      obtain ⟨d, hd, hfk, hdc⟩ := hex
      simp only [nodesL] at hd
      simp only [searchList]
      rcases List.mem_append.mp hd with hd | hd
      · exact searchList_isSome_of_best (sizeL rest) rest pos _ (le_refl _)
          (hsym s pos best hss hwf.1 ⟨d, hd, hfk, hdc⟩)
      · exact ih.2 rest pos _ hszr hwf.2 ⟨d, hd, hfk, hdc⟩

/-- C3: for a well-formed outline (every descendant's range contained in
its ancestor's, as document symbol providers report), whenever some
function-kind node's range contains the position, the locator's symbol
walk returns a scope whose range contains the position and whose range and
name are those of a function-kind outline node (the claim's node, when it
is the one selected as smallest). -/
theorem enclosing_scope_contains_position :
    ∀ (syms : DocSymList) (pos : Pos),
      wfL syms →
      (∃ d ∈ nodesL syms, isFunctionKind d.kind = true ∧
        rangeContains d.range pos = true) →
      ∃ r n, searchList pos none syms = some (r, n) ∧
        rangeContains r pos = true ∧
        ∃ d ∈ nodesL syms, isFunctionKind d.kind = true ∧ d.range = r ∧
          d.name = n := by
  intro syms pos hwf hex
  have hsome := (search_complete (sizeL syms)).2 syms pos none (le_refl _) hwf hex
  obtain ⟨x, hx⟩ := Option.isSome_iff_exists.mp hsome
  rcases (search_sound (sizeL syms)).2 syms pos none x (le_refl _) hx with h |
    ⟨d, hd, hfk, hr, hn, hc⟩
  · exact Option.noConfusion h
  · refine ⟨x.1, x.2, by simpa using hx, ?_, d, hd, hfk, hr, hn⟩
    rw [← hr]
    exact hc

/-- C3 witness: a single function-kind root node containing the position. -/
theorem enclosing_scope_contains_position_witness :
    ∃ r n, searchList ⟨1, 0⟩ none
        (.cons (.mk "f" 11 ⟨⟨0, 0⟩, ⟨2, 1⟩⟩ .nil) .nil) = some (r, n) ∧
      rangeContains r ⟨1, 0⟩ = true ∧
      ∃ d ∈ nodesL (.cons (.mk "f" 11 ⟨⟨0, 0⟩, ⟨2, 1⟩⟩ .nil) .nil),
        isFunctionKind d.kind = true ∧ d.range = r ∧ d.name = n :=
  enclosing_scope_contains_position
    (.cons (.mk "f" 11 ⟨⟨0, 0⟩, ⟨2, 1⟩⟩ .nil) .nil) ⟨1, 0⟩
    (by simp [wfL, wfS, nodesL])
    ⟨.mk "f" 11 ⟨⟨0, 0⟩, ⟨2, 1⟩⟩ .nil, by simp [nodesL, nodesS], by decide,
      by decide⟩

/-- C7 counterexample: two function-kind nodes contain the position; the
one spanning zero lines but 20000 columns loses to the one spanning one
line, because `rangeSize` weighs a line as only 10000 columns — a strictly
smaller line count does not win regardless of column width. -/
theorem rangeSize_line_dominance_cex :
    rangeContains ⟨⟨0, 0⟩, ⟨0, 20000⟩⟩ ⟨0, 5⟩ = true ∧
    rangeContains ⟨⟨0, 0⟩, ⟨1, 0⟩⟩ ⟨0, 5⟩ = true ∧
    ((⟨⟨0, 0⟩, ⟨0, 20000⟩⟩ : Range).stop.line : Int) -
        (⟨⟨0, 0⟩, ⟨0, 20000⟩⟩ : Range).start.line <
      ((⟨⟨0, 0⟩, ⟨1, 0⟩⟩ : Range).stop.line : Int) -
        (⟨⟨0, 0⟩, ⟨1, 0⟩⟩ : Range).start.line ∧
    searchList ⟨0, 5⟩ none
        (.cons (.mk "wide" 11 ⟨⟨0, 0⟩, ⟨0, 20000⟩⟩ .nil)
          (.cons (.mk "tall" 11 ⟨⟨0, 0⟩, ⟨1, 0⟩⟩ .nil) .nil)) =
      some (⟨⟨0, 0⟩, ⟨1, 0⟩⟩, "tall") := by
  refine ⟨by decide, by decide, by decide, by decide⟩

/-- C7 (amended): in the `rangeSize` comparison
`(Δline) * 10000 + (Δcolumn)` used by the locator, a strictly smaller line
count wins provided the line-smaller range is fewer than 10000 columns
wider than the other; line distance dominates column distance only up to
that factor. -/
theorem rangeSize_line_dominance_bounded :
    ∀ r1 r2 : Range,
      ((r1.stop.line : Int) - r1.start.line <
        (r2.stop.line : Int) - r2.start.line) →
      ((r1.stop.character : Int) - r1.start.character <
        (r2.stop.character : Int) - r2.start.character + 10000) →
      rangeSize r1 < rangeSize r2 := by
  intro r1 r2 h1 h2
  simp only [rangeSize]
  omega

/-- C7 witness: the bounded dominance applied to concrete ranges. -/
theorem rangeSize_line_dominance_bounded_witness :
    rangeSize ⟨⟨0, 0⟩, ⟨0, 5⟩⟩ < rangeSize ⟨⟨0, 0⟩, ⟨2, 0⟩⟩ :=
  rangeSize_line_dominance_bounded ⟨⟨0, 0⟩, ⟨0, 5⟩⟩ ⟨⟨0, 0⟩, ⟨2, 0⟩⟩
    (by decide) (by decide)

/-! ## Claim about call-site de-duplication -/

theorem dedupCalls_not_mem_seen : ∀ (calls : List (String × Nat)) (en : String)
    (seen : List String) (c : String × Nat),
    c ∈ dedupCalls en seen calls → c.1 ∉ seen ∧ c.1 ≠ en := by
  intro calls
  induction calls with
  | nil => intro en seen c h; simp [dedupCalls] at h
  | cons hd rest ih =>
    intro en seen c h
    simp only [dedupCalls] at h
    split at h
    · exact ih en seen c h
    · split at h
      · exact ih en seen c h
      · rename_i hen hseen
        rcases List.mem_cons.mp h with rfl | h
        · exact ⟨hseen, hen⟩
        · have h2 := ih en (hd.1 :: seen) c h
          exact ⟨fun hs => h2.1 (List.mem_cons_of_mem _ hs), h2.2⟩

theorem dedupCalls_nodup : ∀ (calls : List (String × Nat)) (en : String)
    (seen : List String), ((dedupCalls en seen calls).map Prod.fst).Nodup := by
  intro calls
  induction calls with
  | nil => intro en seen; simp [dedupCalls]
  | cons hd rest ih =>
    intro en seen
    simp only [dedupCalls]
    split
    · exact ih en seen
    · split
      · exact ih en seen
      · simp only [List.map_cons, List.nodup_cons]
        refine ⟨?_, ih en _⟩
        intro hmem
        obtain ⟨c, hc, hceq⟩ := List.mem_map.mp hmem
        have h2 := (dedupCalls_not_mem_seen rest en _ c hc).1
        exact h2 (by rw [hceq]; exact List.mem_cons_self _ _)

theorem dedupCalls_sublist : ∀ (calls : List (String × Nat)) (en : String)
    (seen : List String), List.Sublist (dedupCalls en seen calls) calls := by
  intro calls
  induction calls with
  | nil => intro en seen; simp [dedupCalls]
  | cons hd rest ih =>
    intro en seen
    simp only [dedupCalls]
    split
    · exact (ih en seen).cons _
    · split
      · exact (ih en seen).cons _
      · exact (ih en _).cons₂ _

theorem dedupCalls_first_occurrence : ∀ (calls : List (String × Nat))
    (en : String) (seen : List String) (c : String × Nat),
    c ∈ dedupCalls en seen calls →
    calls.find? (fun x => x.1 == c.1) = some c := by
  intro calls
  induction calls with
  | nil => intro en seen c h; simp [dedupCalls] at h
  | cons hd rest ih =>
    intro en seen c h
    simp only [dedupCalls] at h
    split at h
    · rename_i hen
      have hcne := (dedupCalls_not_mem_seen rest en seen c h).2
      rw [List.find?_cons_of_neg]
      · exact ih en seen c h
      · simp only [beq_iff_eq, hen]
        exact fun hh => hcne hh.symm
    · split at h
      · rename_i hen hseen
        have hcns := (dedupCalls_not_mem_seen rest en seen c h).1
        rw [List.find?_cons_of_neg]
        · exact ih en seen c h
        · simp only [beq_iff_eq]
          intro hh
          exact hcns (hh ▸ hseen)
      · rcases List.mem_cons.mp h with rfl | h
        · rw [List.find?_cons_of_pos]
          simp
        · have hcns := (dedupCalls_not_mem_seen rest en _ c h).1
          rw [List.find?_cons_of_neg]
          · exact ih en _ c h
          · simp only [beq_iff_eq]
            intro hh
            exact hcns (hh ▸ List.mem_cons_self _ _)

theorem dedupCalls_complete : ∀ (calls : List (String × Nat)) (en : String)
    (seen : List String) (nm : String),
    nm ∈ calls.map Prod.fst → nm ≠ en → nm ∉ seen →
    nm ∈ (dedupCalls en seen calls).map Prod.fst := by
  intro calls
  induction calls with
  | nil => intro en seen nm h; simp at h
  | cons hd rest ih =>
    intro en seen nm hmem hne hns
    simp only [List.map_cons, List.mem_cons] at hmem
    simp only [dedupCalls]
    split
    · rename_i hen
      rcases hmem with rfl | hmem
      · exact absurd hen hne
      · exact ih en seen nm hmem hne hns
    · split
      · rename_i hen hseen
        rcases hmem with rfl | hmem
        · exact absurd hseen hns
        · exact ih en seen nm hmem hne hns
      · simp only [List.map_cons, List.mem_cons]
        rcases hmem with rfl | hmem
        · left; rfl
        · by_cases heq : nm = hd.1
          · left; exact heq
          · right
            refine ih en _ nm hmem hne ?_
            simp only [List.mem_cons]
            rintro (h | h)
            · exact heq h
            · exact hns h

theorem map_name_filterMap_sublist : ∀ (l : List (String × Nat))
    (f : String → Option FunctionDefinition),
    (∀ nm d, f nm = some d → d.name = nm) →
    List.Sublist ((l.filterMap (fun c => f c.1)).map FunctionDefinition.name)
      (l.map Prod.fst) := by
  intro l f hf
  induction l with
  | nil => simp
  | cons hd rest ih =>
    cases hfd : f hd.1 with
    | none =>
      simp only [List.filterMap_cons, hfd, List.map_cons]
      exact ih.cons _
    | some d =>
      simp only [List.filterMap_cons, hfd, List.map_cons, hf hd.1 d hfd]
      exact ih.cons₂ _

/-- C8: the panel's de-duplicated call list has pairwise-distinct names,
excludes the enclosing scope's own name, is a subsequence of the extracted
call list whose every element is the first occurrence of its name, and
contains every other extracted name; consequently a definition list
derived from it by per-name resolution has pairwise-distinct names too.
Concretely, for scope text `"foo(); bar(); foo();"` the result is exactly
`foo` (offset 0) then `bar` (offset 7), and with enclosing name `foo` only
`bar`. -/
theorem callsite_dedup_first_occurrence :
    (∀ (en : String) (calls : List (String × Nat)),
      ((dedupCalls en [] calls).map Prod.fst).Nodup) ∧
    (∀ (en : String) (calls : List (String × Nat)) (c : String × Nat),
      c ∈ dedupCalls en [] calls → c.1 ≠ en) ∧
    (∀ (en : String) (calls : List (String × Nat)),
      List.Sublist (dedupCalls en [] calls) calls) ∧
    (∀ (en : String) (calls : List (String × Nat)) (c : String × Nat),
      c ∈ dedupCalls en [] calls →
      calls.find? (fun x => x.1 == c.1) = some c) ∧
    (∀ (en : String) (calls : List (String × Nat)) (nm : String),
      nm ∈ calls.map Prod.fst → nm ≠ en →
      nm ∈ (dedupCalls en [] calls).map Prod.fst) ∧
    (∀ (en : String) (calls : List (String × Nat))
       (f : String → Option FunctionDefinition),
      (∀ nm d, f nm = some d → d.name = nm) →
      (((dedupCalls en [] calls).filterMap (fun c => f c.1)).map
        FunctionDefinition.name).Nodup) ∧
    dedupCalls "outer" [] (parseFunctionCallsInRange "foo(); bar(); foo();") =
      [("foo", 0), ("bar", 7)] ∧
    dedupCalls "foo" [] (parseFunctionCallsInRange "foo(); bar(); foo();") =
      [("bar", 7)] := by
  refine ⟨fun en calls => dedupCalls_nodup calls en [],
    fun en calls c h => (dedupCalls_not_mem_seen calls en [] c h).2,
    fun en calls => dedupCalls_sublist calls en [],
    fun en calls c h => dedupCalls_first_occurrence calls en [] c h,
    fun en calls nm h1 h2 => dedupCalls_complete calls en [] nm h1 h2 (by simp),
    ?_, by decide, by decide⟩
  intro en calls f hf
  exact (map_name_filterMap_sublist (dedupCalls en [] calls) f hf).nodup
    (dedupCalls_nodup calls en [])

/-- C8 witness: the definition-list conjunct applied to a concrete call
list and resolver. -/
theorem callsite_dedup_first_occurrence_witness :
    (((dedupCalls "outer" [] [("a", 0), ("b", 1), ("a", 2)]).filterMap
        (fun c => some (⟨c.1, 0, "x", 0, 0⟩ : FunctionDefinition))).map
      FunctionDefinition.name).Nodup :=
  callsite_dedup_first_occurrence.2.2.2.2.2.1 "outer"
    [("a", 0), ("b", 1), ("a", 2)]
    (fun nm => some ⟨nm, 0, "x", 0, 0⟩) (fun nm d h => by cases h; rfl)

end Kodx
